import Mathlib

/-!
Verification of the simulation engine in `src/backend/circuit_engine.py`
(repository ToastCheng/cirq-ui).

The Python code is shallowly embedded as follows:
* pydantic request/response models become Lean structures
  (`GateOp`, `CircuitData`, `StepResult`, `SimulationResult`);
* Python floats are modelled as exact real numbers `ℝ`, complex numpy
  amplitudes as `ℂ`;
* Python exceptions (`IndexError` from list indexing, `ValueError` from
  `float()` and from cirq's duplicate-qubit validation, `KeyError` from the
  `moment_ops` dict) become an `Except PyErr` result;
* the cirq simulator state over `n` qubits is a tensor
  `(Fin n → Fin 2) → ℂ`; the flat numpy state vector uses C-order
  (big-endian) index encoding, captured by `flatEquiv`;
* both register branches of `build_circuit` (`cirq.NamedQubit` for a
  matching name list, `cirq.LineQubit.range` otherwise) produce the same
  ordered register of `n` distinct qubits, so qubits are modelled as
  indices `Fin n`; the name list does not influence the simulation.
-/

namespace CirqUI

/-- Python exceptions that `build_circuit` can raise: `IndexError` from
`qubits[...]`, `ValueError` from `float(...)` or cirq's duplicate-qid
validation, `KeyError` from `moment_ops[g.moment]`. -/
inductive PyErr where
  | indexError
  | valueError
  | keyError
deriving DecidableEq

/-- The pydantic field `parameter: Optional[Union[float, str]]`. -/
inductive PyVal where
  | pfloat (x : ℝ)
  | pstr (s : String)

/-- Digits-to-number helper for the decimal parser. -/
def natOfDigits (cs : List Char) : ℕ :=
  cs.foldl (fun acc c => 10 * acc + (c.toNat - 48)) 0

/-- Unsigned decimal literal: `digits`, `digits.digits`, `digits.` or
`.digits`. -/
def parseUnsigned (cs : List Char) : Option ℚ :=
  let intPart := cs.takeWhile (·.isDigit)
  let rest := cs.dropWhile (·.isDigit)
  match rest with
  | [] => if intPart.isEmpty then none else some (natOfDigits intPart : ℚ)
  | '.' :: frac =>
      if frac.all (·.isDigit) ∧ (¬intPart.isEmpty ∨ ¬frac.isEmpty) then
        some ((natOfDigits intPart : ℚ) + (natOfDigits frac : ℚ) / (10 : ℚ) ^ frac.length)
      else none
  | _ => none

/-- Model of Python's `float(str)` on plain signed decimal literals
(optionally surrounded by whitespace); other strings raise `ValueError`. -/
def parseDec (s : String) : Option ℚ :=
  match s.trim.toList with
  | '+' :: cs => parseUnsigned cs
  | '-' :: cs => (parseUnsigned cs).map (fun q => -q)
  | cs => parseUnsigned cs

/-- Model of Python's `float(g.parameter)` for `parameter : Union[float, str]`. -/
def pyFloat : PyVal → Except PyErr ℝ
  | PyVal.pfloat x => Except.ok x
  | PyVal.pstr s =>
      match parseDec s with
      | some q => Except.ok (q : ℝ)
      | none => Except.error PyErr.valueError

/-- pydantic model `GateOp` (circuit_engine.py lines 6-13). -/
structure GateOp where
  type : String
  qubit : Option Int := none
  target : Option Int := none
  control : Option Int := none
  controls : Option (List Int) := none
  parameter : Option PyVal := none
  moment : Int

/-- pydantic model `CircuitData` (lines 15-18).  `qubits` is the declared
register size. -/
structure CircuitData where
  qubits : ℕ
  qubit_names : Option (List String) := none
  gates : List GateOp

/-- pydantic model `StepResult` (lines 20-23): the state vector is the list
of `{real, imag}` pairs, the Bloch vectors are `[x, y, z]` triples. -/
structure StepResult where
  moment : Int
  state_vector : List (ℝ × ℝ)
  bloch_vectors : List (ℝ × ℝ × ℝ)

/-- pydantic model `SimulationResult` (lines 25-28). -/
structure SimulationResult where
  state_vector : List (ℝ × ℝ)
  bloch_vectors : List (ℝ × ℝ × ℝ)
  steps : List StepResult

/-- Flat C-order (big-endian, numpy/cirq convention) index encoding of a
rank-`n` binary tensor index: axis `0` is the most significant bit, so a
tuple `f` maps to `∑ i, f i * 2 ^ (n - 1 - i)`. -/
def flatEquiv (n : ℕ) : (Fin n → Fin 2) ≃ Fin (2 ^ n) :=
  (Equiv.arrowCongr Fin.revPerm (Equiv.refl (Fin 2))).trans finFunctionFinEquiv

/-- Pauli X; also `cirq.X` and the base unitary of `cirq.CNOT`. -/
def Xmat : Matrix (Fin 2) (Fin 2) ℂ := !![0, 1; 1, 0]

/-- Pauli Y (`cirq.Y`, and the `Y` matrix built in
`density_matrix_to_bloch`). -/
def Ymat : Matrix (Fin 2) (Fin 2) ℂ := !![0, -Complex.I; Complex.I, 0]

/-- Pauli Z (`cirq.Z`, and the `Z` matrix built in
`density_matrix_to_bloch`). -/
def Zmat : Matrix (Fin 2) (Fin 2) ℂ := !![1, 0; 0, -1]

/-- Hadamard, the unitary of `cirq.H`. -/
noncomputable def Hmat : Matrix (Fin 2) (Fin 2) ℂ := (Real.sqrt 2 : ℂ)⁻¹ • !![1, 1; 1, -1]

/-- Unitary of `cirq.rx θ`: `exp (-i θ X / 2)`. -/
noncomputable def rxMat (θ : ℝ) : Matrix (Fin 2) (Fin 2) ℂ :=
  !![(Real.cos (θ / 2) : ℂ), -Complex.I * (Real.sin (θ / 2) : ℂ);
     -Complex.I * (Real.sin (θ / 2) : ℂ), (Real.cos (θ / 2) : ℂ)]

/-- Unitary of `cirq.ry θ`: `exp (-i θ Y / 2)`. -/
noncomputable def ryMat (θ : ℝ) : Matrix (Fin 2) (Fin 2) ℂ :=
  !![(Real.cos (θ / 2) : ℂ), -(Real.sin (θ / 2) : ℂ);
     (Real.sin (θ / 2) : ℂ), (Real.cos (θ / 2) : ℂ)]

/-- Unitary of `cirq.rz θ`: `diag (exp (-i θ / 2), exp (i θ / 2))`. -/
noncomputable def rzMat (θ : ℝ) : Matrix (Fin 2) (Fin 2) ℂ :=
  !![Complex.exp (-Complex.I * (θ / 2 : ℝ)), 0;
     0, Complex.exp (Complex.I * (θ / 2 : ℝ))]

/-- A resolved cirq operation over an `n`-qubit register: a single-qubit
base unitary `U` on qubit `target`, conditioned on every qubit in
`controls` being `|1⟩` (`cirq.CNOT` is `X` with one control;
`controlled_by` appends further controls). -/
structure Op (n : ℕ) where
  U : Matrix (Fin 2) (Fin 2) ℂ
  target : Fin n
  controls : List (Fin n)

/-- Python list indexing `qubits[i]` on the register list of length `n`:
indices in `[0, n)` are direct, indices in `[-n, 0)` wrap from the end,
anything else raises `IndexError`. -/
def pyGetIdx (n : ℕ) (i : Int) : Except PyErr (Fin n) :=
  if h : 0 ≤ i ∧ i < (n : Int) then Except.ok ⟨i.toNat, by omega⟩
  else if h2 : -(n : Int) ≤ i ∧ i < 0 then Except.ok ⟨(i + n).toNat, by omega⟩
  else Except.error PyErr.indexError

/-- The shared shape of the four plain single-qubit arms (`H`, `X`, `Y`,
`Z`) of the dispatch chain: `if g.qubit is not None: op = gate(qubits[q])`,
otherwise the descriptor is left as `None`. -/
noncomputable def single1 (n : ℕ) (U : Matrix (Fin 2) (Fin 2) ℂ) :
    Option Int → Except PyErr (Option (Op n))
  | some q => do
      let t ← pyGetIdx n q
      pure (some ⟨U, t, []⟩)
  | none => pure none

/-- The shared shape of the rotation arms (`RX`, `RY`, `RZ`): resolve the
angle first (`float(g.parameter)` or the `π/2` default), then the qubit. -/
noncomputable def rot1 (n : ℕ) (mk : ℝ → Matrix (Fin 2) (Fin 2) ℂ)
    (param : Option PyVal) : Option Int → Except PyErr (Option (Op n))
  | some q => do
      let θ ← match param with
              | some p => pyFloat p
              | none => pure (Real.pi / 2)
      let t ← pyGetIdx n q
      pure (some ⟨mk θ, t, []⟩)
  | none => pure none

/-- The `if/elif` chain of `build_circuit` (lines 86-114) constructing the
base operation for one descriptor: `none` when the gate kind is unknown or
a required field is absent (the descriptor is silently dropped), following
the source's order of effects (`float(...)` before `qubits[...]` for
rotations, `qubits[g.control]` before `qubits[g.target]` for CNOT; cirq
raises `ValueError` when control and target coincide). -/
noncomputable def mkBase (n : ℕ) (g : GateOp) : Except PyErr (Option (Op n)) :=
  match g.type with
  | "H" => single1 n Hmat g.qubit
  | "X" => single1 n Xmat g.qubit
  | "Y" => single1 n Ymat g.qubit
  | "Z" => single1 n Zmat g.qubit
  | "RX" => rot1 n rxMat g.parameter g.qubit
  | "RY" => rot1 n ryMat g.parameter g.qubit
  | "RZ" => rot1 n rzMat g.parameter g.qubit
  | "CNOT" =>
    match g.control, g.target with
    | some c, some t => do
        let qc ← pyGetIdx n c
        let qt ← pyGetIdx n t
        if qc = qt then Except.error PyErr.valueError
        else pure (some ⟨Xmat, qt, [qc]⟩)
    | _, _ => pure none
  | _ => pure none

/-- `if op and g.controls: op = op.controlled_by(*control_qubits)`
(lines 117-120).  An empty `controls` list is falsy in Python, so it is
skipped; cirq's qid validation raises `ValueError` when the combined qubit
set has duplicates. -/
def attachControls (n : ℕ) (g : GateOp) (op : Op n) : Except PyErr (Op n) :=
  match g.controls with
  | some (c :: cs) => do
      let cq ← (c :: cs).mapM (pyGetIdx n)
      let op2 : Op n := ⟨op.U, op.target, op.controls ++ cq⟩
      if (op2.target :: op2.controls).Nodup then pure op2
      else Except.error PyErr.valueError
  | _ => pure op

/-- One iteration of the `for g in data.gates` loop (lines 86-123): build
the base op, attach generic controls, then `moment_ops[g.moment].append(op)`
— the dict only has keys `0..max_moment`, so a negative declared moment
raises `KeyError` (only when an op was actually built). -/
noncomputable def processGate (n : ℕ) (g : GateOp) : Except PyErr (Option (Int × Op n)) := do
  match ← mkBase n g with
  | none => pure none
  | some op0 => do
      let op ← attachControls n g op0
      if g.moment < 0 then Except.error PyErr.keyError
      else pure (some (g.moment, op))

/-- `max_moment` (lines 78-80): `0` for an empty gate list, else the
maximum declared moment index. -/
def maxMoment (gates : List GateOp) : Int :=
  match gates.map (fun g => g.moment) with
  | [] => 0
  | m :: ms => ms.foldl max m

/-- The qubits an operation acts on (cirq `op.qubits`). -/
def opQubits {n : ℕ} (op : Op n) : List (Fin n) :=
  op.target :: op.controls

/-- cirq `InsertStrategy.INLINE` tail of `NEW_THEN_INLINE`: each op joins
the final moment when its qubits are disjoint from it, otherwise a fresh
moment is appended. -/
def inlineOps {n : ℕ} (circ : List (List (Op n))) : List (Op n) → List (List (Op n))
  | [] => circ
  | op :: rest =>
      let lastM := circ.getLast?.getD []
      if ∀ q ∈ opQubits op, ∀ o2 ∈ lastM, q ∉ opQubits o2 then
        inlineOps (circ.dropLast ++ [lastM ++ [op]]) rest
      else
        inlineOps (circ ++ [[op]]) rest

/-- `circuit.append(ops, strategy=cirq.InsertStrategy.NEW_THEN_INLINE)`
(line 127): the first op opens a new moment, the rest follow `INLINE`. -/
def appendNTI {n : ℕ} (circ : List (List (Op n))) : List (Op n) → List (List (Op n))
  | [] => circ
  | op :: rest => inlineOps (circ ++ [[op]]) rest

/-- `build_circuit` (lines 69-131): process every descriptor in order
(errors abort the whole build), group the surviving ops by declared moment
index `0..max_moment`, then append each non-empty group with
`NEW_THEN_INLINE`; empty groups are passed over. -/
noncomputable def build_circuit (n : ℕ) (gates : List GateOp) : Except PyErr (List (List (Op n))) := do
  let processed ← gates.mapM (processGate n)
  let groups := (List.range (maxMoment gates + 1).toNat).map (fun i =>
    processed.filterMap (fun x =>
      match x with
      | some (m, op) => if m = (i : Int) then some op else none
      | none => none))
  pure (groups.foldl (fun circ ops => if ops.isEmpty then circ else appendNTI circ ops) [])

/-- Simulator state over `n` qubits: one complex amplitude per assignment
of a bit to each qubit axis. -/
def QState (n : ℕ) := (Fin n → Fin 2) → ℂ

/-- Flat numpy view of the state (what cirq's `step.state_vector()`
returns with `qubit_order=qubits`): C-order flattening of the tensor. -/
def flatten (n : ℕ) (ψ : QState n) : Fin (2 ^ n) → ℂ :=
  fun x => ψ ((flatEquiv n).symm x)

/-- `cirq.to_valid_state_vector(0, n)` (line 159): the flat basis state
`|0…0⟩`, amplitude `1` at flat index `0` and `0` elsewhere. -/
def initFlat (n : ℕ) (x : Fin (2 ^ n)) : ℂ :=
  if (x : ℕ) = 0 then 1 else 0

/-- The tensor view of the initial state `|0…0⟩`. -/
def initState (n : ℕ) : QState n :=
  fun f => initFlat n (flatEquiv n f)

/-- Apply one (possibly controlled) operation to the state: on basis
vectors where every control qubit is `1`, the 2×2 unitary `U` acts on the
target axis; all other amplitudes are untouched. -/
def applyOp {n : ℕ} (op : Op n) (ψ : QState n) : QState n := fun f =>
  if ∀ c ∈ op.controls, f c = 1 then
    op.U (f op.target) 0 * ψ (Function.update f op.target 0) +
    op.U (f op.target) 1 * ψ (Function.update f op.target 1)
  else ψ f

/-- Apply every operation of one circuit moment, in order. -/
def applyMoment {n : ℕ} (ops : List (Op n)) (ψ : QState n) : QState n :=
  ops.foldl (fun s op => applyOp op s) ψ

/-- States after each moment of a non-empty circuit. -/
def runSteps {n : ℕ} : List (List (Op n)) → QState n → List (QState n)
  | [], _ => []
  | mo :: rest, ψ =>
      let ψ2 := applyMoment mo ψ
      ψ2 :: runSteps rest ψ2

/-- `simulator.simulate_moment_steps` (line 165): one yielded state per
circuit moment; cirq's `_core_iterator` yields the unchanged state exactly
once for an empty circuit. -/
def stepStates {n : ℕ} (circuit : List (List (Op n))) (ψ : QState n) : List (QState n) :=
  if circuit.isEmpty then [ψ] else runSteps circuit ψ

/-- `partial_trace(state_vector, keep_qubit_idx, n_qubits)` (lines 31-52):
reshape the flat vector to a rank-`(m+1)` binary tensor (C-order), move the
kept axis to the front (`np.moveaxis`), flatten the remaining axes into one
C-order column index (`reshape (2, 2^m)`), and return `ρ = M·Mᴴ`
(`np.dot(state, state.conj().T)`). -/
noncomputable def partial_trace (m : ℕ) (state_vector : Fin (2 ^ (m + 1)) → ℂ) (keep : Fin (m + 1)) :
    Matrix (Fin 2) (Fin 2) ℂ :=
  Matrix.of fun a b => ∑ c : Fin (2 ^ m),
    state_vector (flatEquiv (m + 1) (keep.insertNth a ((flatEquiv m).symm c))) *
    (starRingEnd ℂ) (state_vector (flatEquiv (m + 1) (keep.insertNth b ((flatEquiv m).symm c))))

/-- `density_matrix_to_bloch(rho)` (lines 54-67):
`(Re Tr(ρX), Re Tr(ρY), Re Tr(ρZ))` with the standard Pauli matrices. -/
noncomputable def density_matrix_to_bloch (rho : Matrix (Fin 2) (Fin 2) ℂ) : ℝ × ℝ × ℝ :=
  (((rho * Xmat).trace).re, ((rho * Ymat).trace).re, ((rho * Zmat).trace).re)

/-- The `for i in range(n_qubits)` Bloch-vector loop of `process_state`
(lines 138-142); empty for a zero-qubit register. -/
noncomputable def blochList : (n : ℕ) → (Fin (2 ^ n) → ℂ) → List (ℝ × ℝ × ℝ)
  | 0, _ => []
  | m + 1, state => List.ofFn fun i : Fin (m + 1) =>
      density_matrix_to_bloch (partial_trace m state i)

/-- `process_state(state_vector, n_qubits)` (lines 133-144): the formatted
`{real, imag}` amplitude list in flat-index order, plus one Bloch vector
per qubit. -/
noncomputable def process_state (n : ℕ) (state : Fin (2 ^ n) → ℂ) :
    List (ℝ × ℝ) × List (ℝ × ℝ × ℝ) :=
  (List.ofFn (fun x : Fin (2 ^ n) => ((state x).re, (state x).im)), blochList n state)

/-- The step-collection loop of `run_simulation` (lines 163-169), with its
`current_moment` counter. -/
noncomputable def mkSteps (q : ℕ) (current_moment : ℕ) : List (QState q) → List StepResult
  | [] => []
  | ψ :: rest =>
      let pr := process_state q (flatten q ψ)
      ⟨(current_moment : Int), pr.1, pr.2⟩ :: mkSteps q (current_moment + 1) rest

/-- The simulation body of `run_simulation` (lines 154-178) on an already
built circuit: record the initial `|0…0⟩` state as the `moment = -1` step,
record one step per simulated moment numbered `0, 1, …`, and copy the last
step's (`steps[-1]`) state and Bloch vectors into the top-level fields. -/
noncomputable def assembleResult (q : ℕ) (circuit : List (List (Op q))) : SimulationResult :=
  let initial_state := initState q
  let pr0 := process_state q (flatten q initial_state)
  let steps := StepResult.mk (-1) pr0.1 pr0.2 ::
    mkSteps q 0 (stepStates circuit initial_state)
  let final_step := steps.getLast (List.cons_ne_nil _ _)
  ⟨final_step.state_vector, final_step.bloch_vectors, steps⟩

/-- `run_simulation(data)` (lines 146-178): build the circuit, then run
the simulation and assemble the step history. -/
noncomputable def run_simulation (data : CircuitData) : Except PyErr SimulationResult := do
  let circuit ← build_circuit data.qubits data.gates
  pure (assembleResult data.qubits circuit)

/-- Total squared magnitude (norm²) of a tensor state. -/
noncomputable def normSqState {n : ℕ} (ψ : QState n) : ℝ :=
  ∑ f : Fin n → Fin 2, Complex.normSq (ψ f)

/-- Sum of squared magnitudes of a formatted `{real, imag}` amplitude
list, the quantity the spec's norm invariant is about. -/
def sumSqList (l : List (ℝ × ℝ)) : ℝ :=
  (l.map (fun pr => pr.1 ^ 2 + pr.2 ^ 2)).sum

/-- Well-formedness that cirq guarantees for every operation it accepts:
the base matrix is unitary and the target is distinct from all controls. -/
def OpWF {n : ℕ} (op : Op n) : Prop :=
  op.U.conjTranspose * op.U = 1 ∧ op.target ∉ op.controls

/-! ## Structural lemmas about the step history -/

lemma runSteps_length {n : ℕ} (circuit : List (List (Op n))) (ψ : QState n) :
    (runSteps circuit ψ).length = circuit.length := by
  induction circuit generalizing ψ with
  | nil => rfl
  | cons mo rest ih => simp [runSteps, ih]

lemma stepStates_length {n : ℕ} (circuit : List (List (Op n))) (ψ : QState n) :
    (stepStates circuit ψ).length = max 1 circuit.length := by
  cases circuit with
  | nil => simp [stepStates]
  | cons mo rest =>
      simp [stepStates, runSteps_length]

lemma mkSteps_length (q c : ℕ) (l : List (QState q)) :
    (mkSteps q c l).length = l.length := by
  induction l generalizing c with
  | nil => rfl
  | cons ψ rest ih => simp [mkSteps, ih]

lemma mkSteps_map_moment (q c : ℕ) (l : List (QState q)) :
    (mkSteps q c l).map StepResult.moment
      = (List.range l.length).map (fun i => ((c + i : ℕ) : Int)) := by
  induction l generalizing c with
  | nil => rfl
  | cons ψ rest ih =>
      simp only [mkSteps, List.map_cons, ih, List.length_cons,
        List.range_succ_eq_map, List.map_map]
      refine congrArg₂ List.cons (by simp) ?_
      refine List.map_congr_left (fun x hx => ?_)
      simp [Function.comp]
      omega

lemma run_simulation_ok {d : CircuitData} {c : List (List (Op d.qubits))}
    (hc : build_circuit d.qubits d.gates = Except.ok c) :
    run_simulation d = Except.ok (assembleResult d.qubits c) := by
  unfold run_simulation
  rw [hc]
  rfl

lemma run_simulation_ok_inv {d : CircuitData} {r : SimulationResult}
    (h : run_simulation d = Except.ok r) :
    ∃ c, build_circuit d.qubits d.gates = Except.ok c ∧ r = assembleResult d.qubits c := by
  unfold run_simulation at h
  cases hb : build_circuit d.qubits d.gates with
  | ok c =>
      rw [hb] at h
      have h2 : Except.ok (assembleResult d.qubits c) = Except.ok r := h
      injection h2 with h3
      exact ⟨c, rfl, h3.symm⟩
  | error e =>
      rw [hb] at h
      have h2 : (Except.error e : Except PyErr SimulationResult) = Except.ok r := h
      exact absurd h2 (by simp)

lemma assembleResult_steps (q : ℕ) (circuit : List (List (Op q))) :
    (assembleResult q circuit).steps
      = StepResult.mk (-1) (process_state q (flatten q (initState q))).1
          (process_state q (flatten q (initState q))).2 ::
        mkSteps q 0 (stepStates circuit (initState q)) := rfl

lemma assembleResult_last (q : ℕ) (circuit : List (List (Op q))) :
    ∃ h : (assembleResult q circuit).steps ≠ [],
      (assembleResult q circuit).state_vector
          = ((assembleResult q circuit).steps.getLast h).state_vector ∧
      (assembleResult q circuit).bloch_vectors
          = ((assembleResult q circuit).steps.getLast h).bloch_vectors :=
  ⟨List.cons_ne_nil _ _, rfl, rfl⟩

/-! ## Claim theorems: step-list structure -/

/-- C1 (amended): for every request whose circuit build succeeds, the
returned steps list has `1 + max 1 k` entries where `k` is the number of
moments of the *built* circuit (declared-but-empty moment indices are
skipped, not filled; an empty circuit still yields one simulated step), and
the top-level `state_vector`/`bloch_vectors` equal the last entry's. -/
theorem C1_steps_shape (d : CircuitData) (c : List (List (Op d.qubits)))
    (hc : build_circuit d.qubits d.gates = Except.ok c) :
    ∃ r, run_simulation d = Except.ok r ∧
      r.steps.length = 1 + max 1 c.length ∧
      ∃ h : r.steps ≠ [],
        r.state_vector = (r.steps.getLast h).state_vector ∧
        r.bloch_vectors = (r.steps.getLast h).bloch_vectors := by
  refine ⟨assembleResult d.qubits c, run_simulation_ok hc, ?_, assembleResult_last _ _⟩
  rw [assembleResult_steps]
  simp [mkSteps_length, stepStates_length]
  omega

/-- Witness for `C1_steps_shape` at the empty one-qubit request. -/
theorem C1_steps_shape_witness :
    ∃ r, run_simulation ⟨1, none, []⟩ = Except.ok r ∧
      r.steps.length = 1 + max 1 ([] : List (List (Op 1))).length ∧
      ∃ h : r.steps ≠ [],
        r.state_vector = (r.steps.getLast h).state_vector ∧
        r.bloch_vectors = (r.steps.getLast h).bloch_vectors :=
  C1_steps_shape ⟨1, none, []⟩ [] rfl

/-- C1 counterexample: a single `X` gate declared at moment 1 (moment 0
declared but empty).  `max_moment = 1`, yet the result has 2 steps, not
`m + 2 = 3`: the empty moment 0 is skipped, not simulated. -/
theorem C1_counterexample :
    maxMoment [⟨"X", some 0, none, none, none, none, 1⟩] = 1 ∧
    ∃ r, run_simulation ⟨1, none, [⟨"X", some 0, none, none, none, none, 1⟩]⟩
        = Except.ok r ∧
      r.steps.length = 2 ∧ ¬r.steps.length = 3 := by
  refine ⟨rfl, assembleResult 1 [[⟨Xmat, 0, []⟩]],
    run_simulation_ok (c := [[⟨Xmat, 0, []⟩]]) rfl, ?_⟩
  rw [assembleResult_steps]
  simp [mkSteps_length, stepStates_length]

lemma consec_moments (k : ℕ) :
    ((-1 : Int) :: (List.range k).map (fun i : ℕ => (i : Int)))
      = (List.range (k + 1)).map (fun i : ℕ => (i : Int) - 1) := by
  rw [List.range_succ_eq_map, List.map_cons, List.map_map]
  refine congrArg₂ List.cons (by simp) ?_
  refine List.map_congr_left (fun x hx => ?_)
  simp [Function.comp]

/-- C10: the recorded `moment` fields are always the consecutive integers
`-1, 0, 1, …` (the `i`-th entry has moment `i - 1`): a sequential counter,
not the declared moment indices. -/
theorem C10_moments_consecutive (d : CircuitData) (r : SimulationResult)
    (h : run_simulation d = Except.ok r) :
    r.steps.map StepResult.moment
      = (List.range r.steps.length).map (fun i : ℕ => (i : Int) - 1) := by
  obtain ⟨c, hc, rfl⟩ := run_simulation_ok_inv h
  rw [assembleResult_steps]
  rw [List.map_cons, mkSteps_map_moment]
  simp only [Nat.zero_add, List.length_cons, mkSteps_length]
  exact consec_moments _

/-- Witness for `C10_moments_consecutive` at the empty one-qubit request. -/
theorem C10_moments_consecutive_witness :
    (assembleResult 1 []).steps.map StepResult.moment
      = (List.range (assembleResult 1 []).steps.length).map (fun i : ℕ => (i : Int) - 1) :=
  C10_moments_consecutive ⟨1, none, []⟩ (assembleResult 1 [])
    (run_simulation_ok (c := []) rfl)

/-! ## Claim theorems: validation behavior -/

/-- C2 (code behavior at the claim's failing inputs): an unknown gate kind
(`"SWAP"` is listed in the `GateOp` comment but not handled) and a
single-qubit gate missing its `qubit` field are both silently dropped —
the build succeeds with an empty circuit and the simulation returns a
result, with no error of any kind. -/
theorem C2_silent_drop :
    build_circuit 1 [⟨"SWAP", some 0, none, none, none, none, 0⟩,
                     ⟨"H", none, none, none, none, none, 0⟩] = Except.ok [] ∧
    ∃ r, run_simulation ⟨1, none, [⟨"SWAP", some 0, none, none, none, none, 0⟩,
                     ⟨"H", none, none, none, none, none, 0⟩]⟩ = Except.ok r ∧
      r.steps.length = 2 := by
  refine ⟨rfl, assembleResult 1 [], run_simulation_ok (c := []) rfl, ?_⟩
  rw [assembleResult_steps]
  simp [mkSteps_length, stepStates_length]

/-- C3 (code behavior at the claim's failing inputs): a negative qubit
index wraps around Python-style instead of failing — `X` on qubit `-1` of
a 2-qubit register becomes `X` on qubit 1 and the simulation returns a
full result; an index `≥ n` raises a bare `IndexError` (there is no
`InvalidQubitIndexError` anywhere in the code). -/
theorem C3_negative_index_wraps :
    build_circuit 2 [⟨"X", some (-1), none, none, none, none, 0⟩]
      = Except.ok [[⟨Xmat, 1, []⟩]] ∧
    (∃ r, run_simulation ⟨2, none, [⟨"X", some (-1), none, none, none, none, 0⟩]⟩
        = Except.ok r ∧ r.steps.length = 2) ∧
    build_circuit 2 [⟨"X", some 2, none, none, none, none, 0⟩]
      = Except.error PyErr.indexError := by
  refine ⟨rfl, ⟨assembleResult 2 [[⟨Xmat, 1, []⟩]],
    run_simulation_ok (c := [[⟨Xmat, 1, []⟩]]) rfl, ?_⟩, rfl⟩
  rw [assembleResult_steps]
  simp [mkSteps_length, stepStates_length]

/-- C9 (code behavior at the claim's failing input): a `qubit_names` list
whose length differs from the declared qubit count is silently ignored
(the code falls back to positional qubits) — the simulation succeeds
instead of failing with `InvalidRegisterError` (which does not exist in
the code). -/
theorem C9_name_mismatch_ignored :
    ∃ r, run_simulation ⟨2, some ["a"], []⟩ = Except.ok r ∧ r.steps.length = 2 := by
  refine ⟨assembleResult 2 [], run_simulation_ok (c := []) rfl, ?_⟩
  rw [assembleResult_steps]
  simp [mkSteps_length, stepStates_length]

/-! ## Claim theorems: rotation parameter default -/

lemma exceptLoop_replace {α β ε : Type _} (f : α → Except ε β) (a a' : α) (h : f a = f a')
    (pre post : List α) (acc : List β) :
    List.mapM.loop f (pre ++ a :: post) acc = List.mapM.loop f (pre ++ a' :: post) acc := by
  induction pre generalizing acc with
  | nil =>
      simp only [List.nil_append, List.mapM.loop, h]
  | cons x xs ih =>
      simp only [List.cons_append, List.mapM.loop]
      cases f x with
      | error e => rfl
      | ok b => exact ih _

lemma attachControls_congr (n : ℕ) (g g' : GateOp) (h : g.controls = g'.controls)
    (op : Op n) : attachControls n g op = attachControls n g' op := by
  unfold attachControls
  rw [h]

lemma processGate_default_param (n : ℕ) (g : GateOp)
    (ht : g.type = "RX" ∨ g.type = "RY" ∨ g.type = "RZ") (hp : g.parameter = none) :
    processGate n g
      = processGate n { g with parameter := some (PyVal.pfloat (Real.pi / 2)) } := by
  obtain ⟨ty, qb, tg, ct, cts, par, mo⟩ := g
  simp only at ht hp
  subst hp
  have hbase : mkBase n ⟨ty, qb, tg, ct, cts, none, mo⟩
      = mkBase n ⟨ty, qb, tg, ct, cts, some (PyVal.pfloat (Real.pi / 2)), mo⟩ := by
    rcases ht with h | h | h <;> subst h <;> simp [mkBase, pyFloat] <;>
      cases qb <;> rfl
  show Except.bind _ _ = Except.bind _ _
  rw [hbase]
  refine congrArg (Except.bind _) (funext fun x => ?_)
  cases x with
  | none => rfl
  | some op0 =>
      show Except.bind _ _ = Except.bind _ _
      rw [attachControls_congr n ⟨ty, qb, tg, ct, cts, none, mo⟩
        ⟨ty, qb, tg, ct, cts, some (PyVal.pfloat (Real.pi / 2)), mo⟩ rfl op0]

lemma maxMoment_congr (pre post : List GateOp) (g g' : GateOp)
    (h : g.moment = g'.moment) :
    maxMoment (pre ++ g :: post) = maxMoment (pre ++ g' :: post) := by
  unfold maxMoment
  rw [List.map_append, List.map_cons, h, ← List.map_cons, ← List.map_append]

lemma build_circuit_default_param (n : ℕ) (pre post : List GateOp) (g : GateOp)
    (ht : g.type = "RX" ∨ g.type = "RY" ∨ g.type = "RZ") (hp : g.parameter = none) :
    build_circuit n (pre ++ g :: post)
      = build_circuit n (pre ++ { g with parameter := some (PyVal.pfloat (Real.pi / 2)) } :: post) := by
  unfold build_circuit
  have h1 : List.mapM (processGate n) (pre ++ g :: post)
      = List.mapM (processGate n)
          (pre ++ { g with parameter := some (PyVal.pfloat (Real.pi / 2)) } :: post) :=
    exceptLoop_replace (processGate n) g _ (processGate_default_param n g ht hp) pre post []
  have h2 : maxMoment (pre ++ g :: post)
      = maxMoment (pre ++ { g with parameter := some (PyVal.pfloat (Real.pi / 2)) } :: post) :=
    maxMoment_congr pre post _ _ rfl
  rw [h1]
  simp only [h2]

/-- C7: a rotation gate descriptor (`RX`, `RY` or `RZ`) with no `parameter`
field produces exactly the same simulation result as the same descriptor
with `parameter = π/2`. -/
theorem C7_default_param (q : ℕ) (names : Option (List String))
    (pre post : List GateOp) (g : GateOp)
    (ht : g.type = "RX" ∨ g.type = "RY" ∨ g.type = "RZ") (hp : g.parameter = none) :
    run_simulation ⟨q, names, pre ++ g :: post⟩
      = run_simulation ⟨q, names,
          pre ++ { g with parameter := some (PyVal.pfloat (Real.pi / 2)) } :: post⟩ := by
  unfold run_simulation
  simp only [build_circuit_default_param q pre post g ht hp]

/-- Witness for `C7_default_param`: a bare `RX` on one qubit. -/
theorem C7_default_param_witness :
    run_simulation ⟨1, none, [⟨"RX", some 0, none, none, none, none, 0⟩]⟩
      = run_simulation ⟨1, none,
          [⟨"RX", some 0, none, none, none, some (PyVal.pfloat (Real.pi / 2)), 0⟩]⟩ :=
  C7_default_param 1 none [] [] ⟨"RX", some 0, none, none, none, none, 0⟩
    (Or.inl rfl) rfl

/-! ## Claim theorems: initial state -/

lemma flatten_initState (q : ℕ) : flatten q (initState q) = initFlat q := by
  funext x
  simp [flatten, initState, Equiv.apply_symm_apply]

lemma fmt_initFlat (q : ℕ) :
    (process_state q (initFlat q)).1
      = List.ofFn (fun x : Fin (2 ^ q) =>
          if (x : ℕ) = 0 then ((1 : ℝ), (0 : ℝ)) else (0, 0)) := by
  show List.ofFn (fun x : Fin (2 ^ q) => ((initFlat q x).re, (initFlat q x).im)) = _
  refine congrArg List.ofFn (funext fun x => ?_)
  by_cases hx : (x : ℕ) = 0 <;> simp [initFlat, hx]

/-- C8: every simulation result starts with the `moment = -1` step whose
recorded state vector is the basis state `|0…0⟩` — the list of `2^n`
amplitude pairs with `(1, 0)` at flat index `0` and `(0, 0)` elsewhere —
together with its per-qubit Bloch vectors; this holds for any request the
engine accepts, including one with zero gates. -/
theorem C8_initial_step (d : CircuitData) (r : SimulationResult)
    (h : run_simulation d = Except.ok r) :
    ∃ s rest, r.steps = s :: rest ∧ s.moment = -1 ∧
      s.state_vector
        = List.ofFn (fun x : Fin (2 ^ d.qubits) =>
            if (x : ℕ) = 0 then ((1 : ℝ), (0 : ℝ)) else (0, 0)) ∧
      s.bloch_vectors = blochList d.qubits (initFlat d.qubits) := by
  obtain ⟨c, hc, rfl⟩ := run_simulation_ok_inv h
  refine ⟨_, _, assembleResult_steps _ _, rfl, ?_, ?_⟩
  · show (process_state d.qubits (flatten d.qubits (initState d.qubits))).1 = _
    rw [flatten_initState]
    exact fmt_initFlat d.qubits
  · show (process_state d.qubits (flatten d.qubits (initState d.qubits))).2 = _
    rw [flatten_initState]
    rfl

/-- Witness for `C8_initial_step`: the zero-gate one-qubit request. -/
theorem C8_initial_step_witness :
    ∃ s rest, (assembleResult 1 []).steps = s :: rest ∧ s.moment = -1 ∧
      s.state_vector
        = List.ofFn (fun x : Fin (2 ^ (1 : ℕ)) =>
            if (x : ℕ) = 0 then ((1 : ℝ), (0 : ℝ)) else (0, 0)) ∧
      s.bloch_vectors = blochList 1 (initFlat 1) :=
  C8_initial_step ⟨1, none, []⟩ (assembleResult 1 []) (run_simulation_ok (c := []) rfl)

/-! ## Claim theorems: partial trace and Bloch vectors -/

lemma partial_trace_contraction (m : ℕ) (ψ : Fin (2 ^ (m + 1)) → ℂ) (k : Fin (m + 1))
    (a b : Fin 2) :
    partial_trace m ψ k a b
      = ∑ r : Fin m → Fin 2,
          ψ (flatEquiv (m + 1) (k.insertNth a r)) *
            (starRingEnd ℂ) (ψ (flatEquiv (m + 1) (k.insertNth b r))) := by
  show (∑ c : Fin (2 ^ m), _) = _
  exact Equiv.sum_comp (flatEquiv m).symm
    (fun r => ψ (flatEquiv (m + 1) (k.insertNth a r)) *
      (starRingEnd ℂ) (ψ (flatEquiv (m + 1) (k.insertNth b r))))

lemma bloch_components (rho : Matrix (Fin 2) (Fin 2) ℂ) :
    density_matrix_to_bloch rho
      = ((rho 0 1 + rho 1 0).re, (Complex.I * (rho 0 1 - rho 1 0)).re,
         (rho 0 0 - rho 1 1).re) := by
  simp only [density_matrix_to_bloch, Xmat, Ymat, Zmat, Prod.mk.injEq]
  refine ⟨congrArg Complex.re ?_, congrArg Complex.re ?_, congrArg Complex.re ?_⟩ <;>
    · simp [Matrix.trace, Matrix.mul_apply, Fin.sum_univ_two, Matrix.diag]
      try ring

/-- C5: `partial_trace` — reshape to a rank-n tensor, move the kept axis to
the front, flatten the rest and form `M·Mᴴ` — computes exactly the reduced
density matrix contraction `ρ a b = ∑ over other-qubit assignments r of
ψ(a,r)·conj ψ(b,r)`, and `density_matrix_to_bloch` returns exactly
`(Re Tr(ρX), Re Tr(ρY), Re Tr(ρZ))` over the standard Pauli matrices,
i.e. componentwise `(Re(ρ₀₁+ρ₁₀), Re(i(ρ₀₁−ρ₁₀)), Re(ρ₀₀−ρ₁₁))`. -/
theorem C5_reduction (m : ℕ) (ψ : Fin (2 ^ (m + 1)) → ℂ) (k : Fin (m + 1)) :
    (∀ a b, partial_trace m ψ k a b
        = ∑ r : Fin m → Fin 2,
            ψ (flatEquiv (m + 1) (k.insertNth a r)) *
              (starRingEnd ℂ) (ψ (flatEquiv (m + 1) (k.insertNth b r)))) ∧
    (∀ rho : Matrix (Fin 2) (Fin 2) ℂ,
        density_matrix_to_bloch rho
          = ((rho 0 1 + rho 1 0).re, (Complex.I * (rho 0 1 - rho 1 0)).re,
             (rho 0 0 - rho 1 1).re)) :=
  ⟨partial_trace_contraction m ψ k, bloch_components⟩

lemma bloch_ball_aux {ι : Type _} [Fintype ι] (A B : ι → ℂ)
    (h : (∑ r, Complex.normSq (A r)) + (∑ r, Complex.normSq (B r)) = 1) :
    (2 * (∑ r, A r * (starRingEnd ℂ) (B r)).re) ^ 2
      + (2 * (∑ r, A r * (starRingEnd ℂ) (B r)).im) ^ 2
      + ((∑ r, Complex.normSq (A r)) - (∑ r, Complex.normSq (B r))) ^ 2 ≤ 1 := by
  set p := ∑ r, Complex.normSq (A r) with hp
  set q := ∑ r, Complex.normSq (B r) with hq
  set s := ∑ r, A r * (starRingEnd ℂ) (B r) with hs
  have habs : Complex.abs s ≤ ∑ r, Complex.abs (A r) * Complex.abs (B r) := by
    calc Complex.abs s ≤ ∑ r, Complex.abs (A r * (starRingEnd ℂ) (B r)) :=
          Complex.abs.sum_le _ _
      _ = ∑ r, Complex.abs (A r) * Complex.abs (B r) := by
          refine Finset.sum_congr rfl (fun r _ => ?_)
          rw [map_mul, Complex.abs_conj]
  have hcs2 : (∑ r, Complex.abs (A r) * Complex.abs (B r)) ^ 2 ≤ p * q := by
    calc (∑ r, Complex.abs (A r) * Complex.abs (B r)) ^ 2
        ≤ (∑ r, Complex.abs (A r) ^ 2) * (∑ r, Complex.abs (B r) ^ 2) :=
          Finset.sum_mul_sq_le_sq_mul_sq _ _ _
      _ = p * q := by
          rw [hp, hq]
          simp only [Complex.sq_abs]
  have hns : Complex.normSq s ≤ p * q := by
    rw [← Complex.sq_abs]
    calc Complex.abs s ^ 2 ≤ (∑ r, Complex.abs (A r) * Complex.abs (B r)) ^ 2 := by
          apply pow_le_pow_left₀ (Complex.abs.nonneg _) habs
      _ ≤ p * q := hcs2
  have hre : s.re ^ 2 + s.im ^ 2 ≤ p * q := by
    have h2 := Complex.normSq_apply s
    nlinarith [hns]
  have hpq : (p + q) ^ 2 = 1 := by rw [h]; norm_num
  nlinarith [hre, hpq]

/-- C6: for every unit-norm state vector over `m + 1` qubits and every
qubit index, the Bloch vector from `partial_trace` followed by
`density_matrix_to_bloch` satisfies `x² + y² + z² ≤ 1`. -/
theorem C6_bloch_in_ball (m : ℕ) (ψ : Fin (2 ^ (m + 1)) → ℂ) (k : Fin (m + 1))
    (h : ∑ x, Complex.normSq (ψ x) = 1) :
    (density_matrix_to_bloch (partial_trace m ψ k)).1 ^ 2
      + (density_matrix_to_bloch (partial_trace m ψ k)).2.1 ^ 2
      + (density_matrix_to_bloch (partial_trace m ψ k)).2.2 ^ 2 ≤ 1 := by
  have e2 : ∑ pr : Fin 2 × (Fin m → Fin 2),
      Complex.normSq (ψ (flatEquiv (m + 1) (k.insertNth pr.1 pr.2)))
        = ∑ f : Fin (m + 1) → Fin 2, Complex.normSq (ψ (flatEquiv (m + 1) f)) := by
    have h3 := Equiv.sum_comp (Fin.insertNthEquiv (fun _ => Fin 2) k)
      (fun f => Complex.normSq (ψ (flatEquiv (m + 1) f)))
    simpa using h3
  have e1 : ∑ f : Fin (m + 1) → Fin 2, Complex.normSq (ψ (flatEquiv (m + 1) f))
      = ∑ x, Complex.normSq (ψ x) :=
    Equiv.sum_comp (flatEquiv (m + 1)) (fun x => Complex.normSq (ψ x))
  have key : ∑ pr : Fin 2 × (Fin m → Fin 2),
      Complex.normSq (ψ (flatEquiv (m + 1) (k.insertNth pr.1 pr.2))) = 1 := by
    rw [e2, e1, h]
  rw [Fintype.sum_prod_type, Fin.sum_univ_two] at key
  have hsplit : (∑ r : Fin m → Fin 2,
        Complex.normSq (ψ (flatEquiv (m + 1) (k.insertNth 0 r))))
      + (∑ r : Fin m → Fin 2,
        Complex.normSq (ψ (flatEquiv (m + 1) (k.insertNth 1 r)))) = 1 := key
  have h10 : (∑ r : Fin m → Fin 2,
        ψ (flatEquiv (m + 1) (k.insertNth 1 r)) *
          (starRingEnd ℂ) (ψ (flatEquiv (m + 1) (k.insertNth 0 r))))
      = (starRingEnd ℂ) (∑ r : Fin m → Fin 2,
          ψ (flatEquiv (m + 1) (k.insertNth 0 r)) *
            (starRingEnd ℂ) (ψ (flatEquiv (m + 1) (k.insertNth 1 r)))) := by
    rw [map_sum]
    refine Finset.sum_congr rfl (fun r _ => ?_)
    rw [map_mul, Complex.conj_conj, mul_comm]
  have h00 : (∑ r : Fin m → Fin 2,
        ψ (flatEquiv (m + 1) (k.insertNth 0 r)) *
          (starRingEnd ℂ) (ψ (flatEquiv (m + 1) (k.insertNth 0 r))))
      = (((∑ r : Fin m → Fin 2,
          Complex.normSq (ψ (flatEquiv (m + 1) (k.insertNth 0 r)))) : ℝ) : ℂ) := by
    push_cast
    refine Finset.sum_congr rfl (fun r _ => ?_)
    rw [Complex.mul_conj]
  have h11 : (∑ r : Fin m → Fin 2,
        ψ (flatEquiv (m + 1) (k.insertNth 1 r)) *
          (starRingEnd ℂ) (ψ (flatEquiv (m + 1) (k.insertNth 1 r))))
      = (((∑ r : Fin m → Fin 2,
          Complex.normSq (ψ (flatEquiv (m + 1) (k.insertNth 1 r)))) : ℝ) : ℂ) := by
    push_cast
    refine Finset.sum_congr rfl (fun r _ => ?_)
    rw [Complex.mul_conj]
  have haux := bloch_ball_aux
    (fun r : Fin m → Fin 2 => ψ (flatEquiv (m + 1) (k.insertNth 0 r)))
    (fun r : Fin m → Fin 2 => ψ (flatEquiv (m + 1) (k.insertNth 1 r))) hsplit
  rw [bloch_components]
  rw [partial_trace_contraction m ψ k 0 1, partial_trace_contraction m ψ k 1 0,
    partial_trace_contraction m ψ k 0 0, partial_trace_contraction m ψ k 1 1]
  rw [h10, h00, h11]
  simp only [Complex.add_re, Complex.conj_re, Complex.mul_re, Complex.I_re,
    Complex.I_im, Complex.sub_re, Complex.sub_im, Complex.conj_im,
    Complex.ofReal_re]
  nlinarith [haux]

/-- Witness for `C6_bloch_in_ball`: the single-qubit basis state `|0⟩`. -/
theorem C6_bloch_in_ball_witness :
    (∑ x, Complex.normSq (initFlat 1 x)) = 1 ∧
    (density_matrix_to_bloch (partial_trace 0 (initFlat 1) 0)).1 ^ 2
      + (density_matrix_to_bloch (partial_trace 0 (initFlat 1) 0)).2.1 ^ 2
      + (density_matrix_to_bloch (partial_trace 0 (initFlat 1) 0)).2.2 ^ 2 ≤ 1 := by
  have hn : (∑ x, Complex.normSq (initFlat 1 x)) = 1 := by
    show (∑ x : Fin 2, Complex.normSq (initFlat 1 x)) = 1
    rw [Fin.sum_univ_two]
    simp [initFlat]
  exact ⟨hn, C6_bloch_in_ball 0 (initFlat 1) 0 hn⟩

/-! ## Unitarity of the gate catalog -/

lemma sqrt2_sq : ((Real.sqrt 2 : ℂ)) * ((Real.sqrt 2 : ℂ)) = 2 := by
  rw [← Complex.ofReal_mul, Real.mul_self_sqrt (by norm_num : (0 : ℝ) ≤ 2)]
  norm_num

lemma sqrt2_ne : ((Real.sqrt 2 : ℂ)) ≠ 0 := by
  rw [Complex.ofReal_ne_zero, Real.sqrt_ne_zero']
  norm_num

lemma Xmat_unitary : Xmat.conjTranspose * Xmat = 1 := by
  ext i j
  fin_cases i <;> fin_cases j <;>
    simp [Xmat, Matrix.mul_apply, Matrix.conjTranspose_apply, Fin.sum_univ_two,
      Matrix.one_apply]

lemma Ymat_unitary : Ymat.conjTranspose * Ymat = 1 := by
  ext i j
  fin_cases i <;> fin_cases j <;>
    simp [Ymat, Matrix.mul_apply, Matrix.conjTranspose_apply, Fin.sum_univ_two,
      Matrix.one_apply, Complex.ext_iff]

lemma Zmat_unitary : Zmat.conjTranspose * Zmat = 1 := by
  ext i j
  fin_cases i <;> fin_cases j <;>
    simp [Zmat, Matrix.mul_apply, Matrix.conjTranspose_apply, Fin.sum_univ_two,
      Matrix.one_apply]

lemma Hmat_unitary : Hmat.conjTranspose * Hmat = 1 := by
  have hs := sqrt2_ne
  ext i j
  fin_cases i <;> fin_cases j <;>
    · simp [Hmat, Matrix.mul_apply, Matrix.conjTranspose_apply, Fin.sum_univ_two,
        Matrix.one_apply, Complex.conj_ofReal, map_inv₀, smul_eq_mul]
      try
        field_simp
        linear_combination (-1 : ℂ) * sqrt2_sq

lemma rxMat_unitary (θ : ℝ) : (rxMat θ).conjTranspose * rxMat θ = 1 := by
  have hcs : ((Real.cos (θ / 2) : ℂ)) ^ 2 + ((Real.sin (θ / 2) : ℂ)) ^ 2 = 1 := by
    rw [← Complex.ofReal_pow, ← Complex.ofReal_pow, ← Complex.ofReal_add,
      Real.cos_sq_add_sin_sq]
    norm_num
  ext i j
  fin_cases i <;> fin_cases j <;>
    · simp [rxMat, Matrix.mul_apply, Matrix.conjTranspose_apply, Fin.sum_univ_two,
        Matrix.one_apply, Complex.conj_ofReal,
        -Complex.ofReal_cos, -Complex.ofReal_sin, -Complex.ofReal_div]
      first
        | ring1
        | linear_combination hcs - ((Real.sin (θ / 2) : ℂ)) ^ 2 * Complex.I_sq

lemma ryMat_unitary (θ : ℝ) : (ryMat θ).conjTranspose * ryMat θ = 1 := by
  have hcs : ((Real.cos (θ / 2) : ℂ)) ^ 2 + ((Real.sin (θ / 2) : ℂ)) ^ 2 = 1 := by
    rw [← Complex.ofReal_pow, ← Complex.ofReal_pow, ← Complex.ofReal_add,
      Real.cos_sq_add_sin_sq]
    norm_num
  ext i j
  fin_cases i <;> fin_cases j <;>
    · simp [ryMat, Matrix.mul_apply, Matrix.conjTranspose_apply, Fin.sum_univ_two,
        Matrix.one_apply, Complex.conj_ofReal,
        -Complex.ofReal_cos, -Complex.ofReal_sin, -Complex.ofReal_div]
      first
        | ring1
        | linear_combination hcs

lemma rzMat_unitary (θ : ℝ) : (rzMat θ).conjTranspose * rzMat θ = 1 := by
  ext i j
  fin_cases i <;> fin_cases j <;>
    · simp [rzMat, Matrix.mul_apply, Matrix.conjTranspose_apply, Fin.sum_univ_two,
        Matrix.one_apply, ← Complex.exp_conj, map_mul, map_neg, Complex.conj_I,
        Complex.conj_ofReal, -Complex.ofReal_div]
      try
        rw [← Complex.exp_add]
        ring_nf
        try exact Complex.exp_zero
        try simp

/-- Norm preservation of a 2×2 unitary acting on an amplitude pair. -/
lemma unitary2_normSq (U : Matrix (Fin 2) (Fin 2) ℂ) (hU : U.conjTranspose * U = 1)
    (v0 v1 : ℂ) :
    Complex.normSq (U 0 0 * v0 + U 0 1 * v1) + Complex.normSq (U 1 0 * v0 + U 1 1 * v1)
      = Complex.normSq v0 + Complex.normSq v1 := by
  have h00 := congrFun (congrFun hU 0) 0
  have h01 := congrFun (congrFun hU 0) 1
  have h11 := congrFun (congrFun hU 1) 1
  simp only [Matrix.mul_apply, Matrix.conjTranspose_apply, Fin.sum_univ_two,
    Matrix.one_apply, Complex.star_def] at h00 h01 h11
  norm_num at h00 h01 h11
  have hc01 := congrArg (starRingEnd ℂ) h01
  simp only [map_add, map_mul, Complex.conj_conj, map_zero] at hc01
  have key : (U 0 0 * v0 + U 0 1 * v1) * (starRingEnd ℂ) (U 0 0 * v0 + U 0 1 * v1)
      + (U 1 0 * v0 + U 1 1 * v1) * (starRingEnd ℂ) (U 1 0 * v0 + U 1 1 * v1)
      = v0 * (starRingEnd ℂ) v0 + v1 * (starRingEnd ℂ) v1 := by
    simp only [map_add, map_mul]
    linear_combination (v0 * (starRingEnd ℂ) v0) * h00 + (v1 * (starRingEnd ℂ) v1) * h11
      + (v0 * (starRingEnd ℂ) v1) * hc01 + (v1 * (starRingEnd ℂ) v0) * h01
  rw [Complex.mul_conj, Complex.mul_conj, Complex.mul_conj, Complex.mul_conj] at key
  exact_mod_cast key

/-! ## Norm preservation of the state-vector engine -/

lemma insertNth_update {m : ℕ} (k : Fin (m + 1)) (x b : Fin 2) (r : Fin m → Fin 2) :
    Function.update (k.insertNth (α := fun _ => Fin 2) x r) k b
      = k.insertNth (α := fun _ => Fin 2) b r := by
  funext j
  rcases eq_or_ne j k with rfl | hj
  · simp [Function.update_same, Fin.insertNth_apply_same]
  · obtain ⟨i, rfl⟩ := Fin.exists_succAbove_eq hj
    rw [Function.update_noteq (Fin.succAbove_ne k i), Fin.insertNth_apply_succAbove,
      Fin.insertNth_apply_succAbove]

lemma insertNth_apply_ne {m : ℕ} (k : Fin (m + 1)) (x y : Fin 2) (r : Fin m → Fin 2)
    (c : Fin (m + 1)) (hc : c ≠ k) :
    k.insertNth (α := fun _ => Fin 2) x r c = k.insertNth (α := fun _ => Fin 2) y r c := by
  obtain ⟨i, rfl⟩ := Fin.exists_succAbove_eq hc
  rw [Fin.insertNth_apply_succAbove, Fin.insertNth_apply_succAbove]

lemma applyOp_normSq {n : ℕ} (op : Op n) (hU : op.U.conjTranspose * op.U = 1)
    (hmem : op.target ∉ op.controls) (ψ : QState n) :
    normSqState (applyOp op ψ) = normSqState ψ := by
  cases n with
  | zero => exact op.target.elim0
  | succ m =>
    unfold normSqState
    have hsum : ∀ G : (Fin (m + 1) → Fin 2) → ℝ,
        ∑ f, G f = ∑ r : Fin m → Fin 2,
          (G (op.target.insertNth 0 r) + G (op.target.insertNth 1 r)) := by
      intro G
      rw [← Equiv.sum_comp (Fin.insertNthEquiv (fun _ => Fin 2) op.target) G]
      rw [Fintype.sum_prod_type]
      rw [Finset.sum_comm]
      refine Finset.sum_congr rfl (fun r _ => ?_)
      rw [Fin.sum_univ_two]
      rfl
    rw [hsum (fun f => Complex.normSq (applyOp op ψ f)),
      hsum (fun f => Complex.normSq (ψ f))]
    refine Finset.sum_congr rfl (fun r _ => ?_)
    have hcond : ∀ a a' : Fin 2,
        (∀ c ∈ op.controls, op.target.insertNth (α := fun _ => Fin 2) a r c = 1) →
        (∀ c ∈ op.controls, op.target.insertNth (α := fun _ => Fin 2) a' r c = 1) := by
      intro a a' h c hc
      rw [insertNth_apply_ne op.target a' a r c (fun he => hmem (he ▸ hc))]
      exact h c hc
    by_cases hP : ∀ c ∈ op.controls, op.target.insertNth (α := fun _ => Fin 2) 0 r c = 1
    · have e0 : applyOp op ψ (op.target.insertNth 0 r)
          = op.U 0 0 * ψ (op.target.insertNth 0 r)
            + op.U 0 1 * ψ (op.target.insertNth 1 r) := by
        unfold applyOp
        rw [if_pos hP]
        rw [Fin.insertNth_apply_same, insertNth_update, insertNth_update]
      have e1 : applyOp op ψ (op.target.insertNth 1 r)
          = op.U 1 0 * ψ (op.target.insertNth 0 r)
            + op.U 1 1 * ψ (op.target.insertNth 1 r) := by
        unfold applyOp
        rw [if_pos (hcond 0 1 hP)]
        rw [Fin.insertNth_apply_same, insertNth_update, insertNth_update]
      rw [e0, e1]
      exact unitary2_normSq op.U hU _ _
    · have h0 : applyOp op ψ (op.target.insertNth 0 r) = ψ (op.target.insertNth 0 r) := by
        unfold applyOp
        rw [if_neg hP]
      have h1 : applyOp op ψ (op.target.insertNth 1 r) = ψ (op.target.insertNth 1 r) := by
        unfold applyOp
        rw [if_neg (fun h => hP (hcond 1 0 h))]
      rw [h0, h1]

lemma applyMoment_normSq {n : ℕ} (ops : List (Op n))
    (hops : ∀ op ∈ ops, OpWF op) (ψ : QState n) :
    normSqState (applyMoment ops ψ) = normSqState ψ := by
  induction ops generalizing ψ with
  | nil => rfl
  | cons op rest ih =>
      have hstep : applyMoment (op :: rest) ψ = applyMoment rest (applyOp op ψ) := rfl
      rw [hstep, ih (fun o ho => hops o (List.mem_cons_of_mem _ ho))]
      exact applyOp_normSq op (hops op (List.mem_cons_self _ _)).1
        (hops op (List.mem_cons_self _ _)).2 ψ

lemma runSteps_normSq {n : ℕ} (circuit : List (List (Op n)))
    (hc : ∀ mo ∈ circuit, ∀ op ∈ mo, OpWF op) (ψ : QState n) :
    ∀ s ∈ runSteps circuit ψ, normSqState s = normSqState ψ := by
  induction circuit generalizing ψ with
  | nil => intro s hs; cases hs
  | cons mo rest ih =>
      intro s hs
      have hrun : runSteps (mo :: rest) ψ
          = applyMoment mo ψ :: runSteps rest (applyMoment mo ψ) := rfl
      rw [hrun] at hs
      have hmo : normSqState (applyMoment mo ψ) = normSqState ψ :=
        applyMoment_normSq mo (hc mo (List.mem_cons_self _ _)) ψ
      rcases List.mem_cons.mp hs with rfl | hs2
      · exact hmo
      · rw [ih (fun m hm => hc m (List.mem_cons_of_mem _ hm)) _ s hs2, hmo]

lemma stepStates_normSq {n : ℕ} (circuit : List (List (Op n)))
    (hc : ∀ mo ∈ circuit, ∀ op ∈ mo, OpWF op) (ψ : QState n) :
    ∀ s ∈ stepStates circuit ψ, normSqState s = normSqState ψ := by
  intro s hs
  unfold stepStates at hs
  by_cases he : circuit.isEmpty
  · rw [if_pos he] at hs
    rcases List.mem_singleton.mp hs with rfl
    rfl
  · rw [if_neg he] at hs
    exact runSteps_normSq circuit hc ψ s hs

/-! ## Every operation accepted by the builder is well-formed -/

lemma single1_wf {n : ℕ} {U : Matrix (Fin 2) (Fin 2) ℂ} {qopt : Option Int} {op : Op n}
    (h : single1 n U qopt = Except.ok (some op)) :
    op.U = U ∧ op.controls = [] := by
  cases qopt with
  | none =>
      have h2 : (Except.ok none : Except PyErr (Option (Op n))) = Except.ok (some op) := h
      injection h2 with h3
      exact Option.noConfusion h3
  | some q =>
      have h' : (do
          let t ← pyGetIdx n q
          pure (some (⟨U, t, []⟩ : Op n)) : Except PyErr (Option (Op n)))
            = Except.ok (some op) := h
      cases hq : pyGetIdx n q with
      | error e =>
          rw [hq] at h'
          exact Except.noConfusion (h' :
            (Except.error e : Except PyErr (Option (Op n))) = Except.ok (some op))
      | ok t =>
          rw [hq] at h'
          have h2 : Except.ok (some (⟨U, t, []⟩ : Op n)) = Except.ok (some op) := h'
          injection h2 with h3
          injection h3 with h4
          subst h4
          exact ⟨rfl, rfl⟩

lemma rot1_wf {n : ℕ} {mk : ℝ → Matrix (Fin 2) (Fin 2) ℂ} {param : Option PyVal}
    {qopt : Option Int} {op : Op n}
    (h : rot1 n mk param qopt = Except.ok (some op)) :
    (∃ θ, op.U = mk θ) ∧ op.controls = [] := by
  cases qopt with
  | none =>
      have h2 : (Except.ok none : Except PyErr (Option (Op n))) = Except.ok (some op) := h
      injection h2 with h3
      exact Option.noConfusion h3
  | some q =>
      have main : ∀ θ : ℝ,
          (do
            let t ← pyGetIdx n q
            pure (some (⟨mk θ, t, []⟩ : Op n)) : Except PyErr (Option (Op n)))
              = Except.ok (some op) → (∃ θ, op.U = mk θ) ∧ op.controls = [] := by
        intro θ hθ
        cases hq : pyGetIdx n q with
        | error e =>
            rw [hq] at hθ
            exact Except.noConfusion (hθ :
              (Except.error e : Except PyErr (Option (Op n))) = Except.ok (some op))
        | ok t =>
            rw [hq] at hθ
            have h2 : Except.ok (some (⟨mk θ, t, []⟩ : Op n)) = Except.ok (some op) := hθ
            injection h2 with h3
            injection h3 with h4
            subst h4
            exact ⟨⟨θ, rfl⟩, rfl⟩
      cases param with
      | none => exact main (Real.pi / 2) h
      | some p =>
          have h' : (do
              let θ ← pyFloat p
              let t ← pyGetIdx n q
              pure (some (⟨mk θ, t, []⟩ : Op n)) : Except PyErr (Option (Op n)))
                = Except.ok (some op) := h
          cases hp : pyFloat p with
          | error e =>
              rw [hp] at h'
              exact Except.noConfusion (h' :
                (Except.error e : Except PyErr (Option (Op n))) = Except.ok (some op))
          | ok θ =>
              rw [hp] at h'
              exact main θ h'

lemma mkBase_wf {n : ℕ} {g : GateOp} {op : Op n}
    (h : mkBase n g = Except.ok (some op)) : OpWF op := by
  have single_case : ∀ U : Matrix (Fin 2) (Fin 2) ℂ, U.conjTranspose * U = 1 →
      ∀ qopt, single1 n U qopt = Except.ok (some op) → OpWF op := by
    intro U hU qopt hs
    obtain ⟨h1, h2⟩ := single1_wf hs
    refine ⟨by rw [h1]; exact hU, by rw [h2]; simp⟩
  have rot_case : ∀ mk : ℝ → Matrix (Fin 2) (Fin 2) ℂ,
      (∀ θ, (mk θ).conjTranspose * mk θ = 1) →
      ∀ param qopt, rot1 n mk param qopt = Except.ok (some op) → OpWF op := by
    intro mk hU param qopt hs
    obtain ⟨⟨θ, h1⟩, h2⟩ := rot1_wf hs
    refine ⟨by rw [h1]; exact hU θ, by rw [h2]; simp⟩
  unfold mkBase at h
  split at h
  · exact single_case Hmat Hmat_unitary _ h
  · exact single_case Xmat Xmat_unitary _ h
  · exact single_case Ymat Ymat_unitary _ h
  · exact single_case Zmat Zmat_unitary _ h
  · exact rot_case rxMat rxMat_unitary _ _ h
  · exact rot_case ryMat ryMat_unitary _ _ h
  · exact rot_case rzMat rzMat_unitary _ _ h
  · cases hco : g.control with
    | none =>
        rw [hco] at h
        have h2 : (Except.ok none : Except PyErr (Option (Op n))) = Except.ok (some op) := by
          rw [← h]
          cases g.target <;> rfl
        injection h2 with h3
        exact Option.noConfusion h3
    | some c =>
      rw [hco] at h
      cases hta : g.target with
      | none =>
          rw [hta] at h
          have h2 : (Except.ok none : Except PyErr (Option (Op n)))
              = Except.ok (some op) := h
          injection h2 with h3
          exact Option.noConfusion h3
      | some t =>
      rw [hta] at h
      have h' : (do
          let qc ← pyGetIdx n c
          let qt ← pyGetIdx n t
          if qc = qt then Except.error PyErr.valueError
          else pure (some (⟨Xmat, qt, [qc]⟩ : Op n)) : Except PyErr (Option (Op n)))
            = Except.ok (some op) := h
      cases hc : pyGetIdx n c with
      | error e =>
          rw [hc] at h'
          exact Except.noConfusion (h' :
            (Except.error e : Except PyErr (Option (Op n))) = Except.ok (some op))
      | ok qc =>
          rw [hc] at h'
          have h'' : (do
              let qt ← pyGetIdx n t
              if qc = qt then Except.error PyErr.valueError
              else pure (some (⟨Xmat, qt, [qc]⟩ : Op n)) : Except PyErr (Option (Op n)))
                = Except.ok (some op) := h'
          cases ht : pyGetIdx n t with
          | error e =>
              rw [ht] at h''
              exact Except.noConfusion (h'' :
                (Except.error e : Except PyErr (Option (Op n))) = Except.ok (some op))
          | ok qt =>
              rw [ht] at h''
              have h3 : (if qc = qt then Except.error PyErr.valueError
                  else pure (some (⟨Xmat, qt, [qc]⟩ : Op n)) :
                    Except PyErr (Option (Op n))) = Except.ok (some op) := h''
              by_cases hqq : qc = qt
              · rw [if_pos hqq] at h3
                exact Except.noConfusion h3
              · rw [if_neg hqq] at h3
                have h4 : Except.ok (some (⟨Xmat, qt, [qc]⟩ : Op n))
                    = Except.ok (some op) := h3
                injection h4 with h5
                injection h5 with h6
                subst h6
                refine ⟨Xmat_unitary, ?_⟩
                simp [Ne.symm hqq]
  · have h2 : (Except.ok none : Except PyErr (Option (Op n))) = Except.ok (some op) := h
    injection h2 with h3
    exact Option.noConfusion h3

lemma attachControls_wf {n : ℕ} {g : GateOp} {op op' : Op n}
    (h : attachControls n g op = Except.ok op') (hop : OpWF op) : OpWF op' := by
  unfold attachControls at h
  rcases hcs : g.controls with _ | ⟨_ | ⟨c, cs⟩⟩
  case none =>
      rw [hcs] at h
      have h2 : Except.ok op = Except.ok op' := h
      injection h2 with h3
      exact h3 ▸ hop
  case some.nil =>
      rw [hcs] at h
      have h2 : Except.ok op = Except.ok op' := h
      injection h2 with h3
      exact h3 ▸ hop
  case some.cons =>
    rw [hcs] at h
    have h' : (do
        let cq ← (c :: cs).mapM (pyGetIdx n)
        let op2 : Op n := ⟨op.U, op.target, op.controls ++ cq⟩
        if (op2.target :: op2.controls).Nodup then pure op2
        else Except.error PyErr.valueError : Except PyErr (Op n)) = Except.ok op' := h
    cases hm : (c :: cs).mapM (pyGetIdx n) with
    | error e =>
        rw [hm] at h'
        exact Except.noConfusion (h' :
          (Except.error e : Except PyErr (Op n)) = Except.ok op')
    | ok cq =>
        rw [hm] at h'
        have h3 : (if ((⟨op.U, op.target, op.controls ++ cq⟩ : Op n).target ::
            (⟨op.U, op.target, op.controls ++ cq⟩ : Op n).controls).Nodup
            then Except.ok (⟨op.U, op.target, op.controls ++ cq⟩ : Op n)
            else Except.error PyErr.valueError) = Except.ok op' := h'
        by_cases hnd : ((⟨op.U, op.target, op.controls ++ cq⟩ : Op n).target ::
            (⟨op.U, op.target, op.controls ++ cq⟩ : Op n).controls).Nodup
        · rw [if_pos hnd] at h3
          injection h3 with h4
          subst h4
          exact ⟨hop.1, (List.nodup_cons.mp hnd).1⟩
        · rw [if_neg hnd] at h3
          exact Except.noConfusion h3

lemma processGate_wf {n : ℕ} {g : GateOp} {mm : Int} {op : Op n}
    (h : processGate n g = Except.ok (some (mm, op))) : OpWF op := by
  unfold processGate at h
  cases hb : mkBase n g with
  | error e =>
      rw [hb] at h
      exact Except.noConfusion (h :
        (Except.error e : Except PyErr (Option (Int × Op n))) = Except.ok (some (mm, op)))
  | ok x =>
      rw [hb] at h
      cases x with
      | none =>
          have h2 : (Except.ok none : Except PyErr (Option (Int × Op n)))
              = Except.ok (some (mm, op)) := h
          injection h2 with h3
          exact Option.noConfusion h3
      | some op0 =>
          have h' : (do
              let op1 ← attachControls n g op0
              if g.moment < 0 then Except.error PyErr.keyError
              else pure (some (g.moment, op1)) : Except PyErr (Option (Int × Op n)))
                = Except.ok (some (mm, op)) := h
          cases ha : attachControls n g op0 with
          | error e =>
              rw [ha] at h'
              exact Except.noConfusion (h' :
                (Except.error e : Except PyErr (Option (Int × Op n)))
                  = Except.ok (some (mm, op)))
          | ok op1 =>
              rw [ha] at h'
              have h3 : (if g.moment < 0 then Except.error PyErr.keyError
                  else Except.ok (some (g.moment, op1)) :
                    Except PyErr (Option (Int × Op n))) = Except.ok (some (mm, op)) := h'
              by_cases hmo : g.moment < 0
              · rw [if_pos hmo] at h3
                exact Except.noConfusion h3
              · rw [if_neg hmo] at h3
                injection h3 with h4
                injection h4 with h5
                have h6 : op1 = op := congrArg Prod.snd h5
                exact h6 ▸ attachControls_wf ha (mkBase_wf hb)

lemma mapM_loop_ok_mem {α β ε : Type _} (f : α → Except ε β) (l : List α)
    (acc out : List β) (h : List.mapM.loop f l acc = Except.ok out) :
    ∀ y ∈ out, y ∈ acc ∨ ∃ a ∈ l, f a = Except.ok y := by
  induction l generalizing acc with
  | nil =>
      have h2 : Except.ok acc.reverse = Except.ok out := h
      injection h2 with h3
      intro y hy
      left
      rw [← h3] at hy
      exact List.mem_reverse.mp hy
  | cons x xs ih =>
      have h' : (do
          let b ← f x
          List.mapM.loop f xs (b :: acc) : Except ε (List β)) = Except.ok out := h
      cases hf : f x with
      | error e =>
          rw [hf] at h'
          exact Except.noConfusion (h' :
            (Except.error e : Except ε (List β)) = Except.ok out)
      | ok b =>
          rw [hf] at h'
          intro y hy
          rcases ih (b :: acc) h' y hy with hacc | ⟨a, ha, hfa⟩
          · rcases List.mem_cons.mp hacc with rfl | hacc2
            · exact Or.inr ⟨x, List.mem_cons_self _ _, hf⟩
            · exact Or.inl hacc2
          · exact Or.inr ⟨a, List.mem_cons_of_mem _ ha, hfa⟩

lemma inlineOps_mem {n : ℕ} (op : Op n) (mo : List (Op n)) (hop : op ∈ mo) :
    ∀ (ops : List (Op n)) (circ : List (List (Op n))), mo ∈ inlineOps circ ops →
      (∃ mo2 ∈ circ, op ∈ mo2) ∨ op ∈ ops := by
  intro ops
  induction ops with
  | nil =>
      intro circ hmo
      exact Or.inl ⟨mo, hmo, hop⟩
  | cons o os ih =>
      intro circ hmo
      unfold inlineOps at hmo
      simp only [] at hmo
      split at hmo
      · rcases ih _ hmo with ⟨mo2, hmo2, hopmo2⟩ | hos
        · rcases List.mem_append.mp hmo2 with hdrop | hlast
          · exact Or.inl ⟨mo2, (List.dropLast_sublist circ).subset hdrop, hopmo2⟩
          · rcases List.mem_singleton.mp hlast with rfl
            rcases List.mem_append.mp hopmo2 with hin | hsing
            · cases hg : circ.getLast? with
              | none =>
                  rw [hg] at hin
                  cases hin
              | some lm =>
                  rw [hg] at hin
                  exact Or.inl ⟨lm, List.mem_of_mem_getLast? hg, hin⟩
            · rcases List.mem_singleton.mp hsing with rfl
              exact Or.inr (List.mem_cons_self _ _)
        · exact Or.inr (List.mem_cons_of_mem _ hos)
      · rcases ih _ hmo with ⟨mo2, hmo2, hopmo2⟩ | hos
        · rcases List.mem_append.mp hmo2 with hin | hsing
          · exact Or.inl ⟨mo2, hin, hopmo2⟩
          · rcases List.mem_singleton.mp hsing with rfl
            rcases List.mem_singleton.mp hopmo2 with rfl
            exact Or.inr (List.mem_cons_self _ _)
        · exact Or.inr (List.mem_cons_of_mem _ hos)

lemma appendNTI_mem {n : ℕ} (op : Op n) (mo : List (Op n)) (hop : op ∈ mo)
    (ops : List (Op n)) (circ : List (List (Op n))) (hmo : mo ∈ appendNTI circ ops) :
    (∃ mo2 ∈ circ, op ∈ mo2) ∨ op ∈ ops := by
  cases ops with
  | nil => exact Or.inl ⟨mo, hmo, hop⟩
  | cons o os =>
      have hmo2 : mo ∈ inlineOps (circ ++ [[o]]) os := hmo
      rcases inlineOps_mem op mo hop os _ hmo2 with ⟨mo2, hmo3, hopmo3⟩ | hos
      · rcases List.mem_append.mp hmo3 with hin | hsing
        · exact Or.inl ⟨mo2, hin, hopmo3⟩
        · rcases List.mem_singleton.mp hsing with rfl
          rcases List.mem_singleton.mp hopmo3 with rfl
          exact Or.inr (List.mem_cons_self _ _)
      · exact Or.inr (List.mem_cons_of_mem _ hos)

lemma foldl_appendNTI_mem {n : ℕ} (P : Op n → Prop) (groups : List (List (Op n))) :
    ∀ circ0 : List (List (Op n)),
      (∀ mo ∈ circ0, ∀ op ∈ mo, P op) →
      (∀ gops ∈ groups, ∀ op ∈ gops, P op) →
      ∀ mo ∈ groups.foldl
        (fun circ ops => if ops.isEmpty then circ else appendNTI circ ops) circ0,
        ∀ op ∈ mo, P op := by
  induction groups with
  | nil => intro circ0 h0 _ mo hmo op hop; exact h0 mo hmo op hop
  | cons gp gps ih =>
      intro circ0 h0 hg mo hmo op hop
      have hfold : mo ∈ gps.foldl
          (fun circ ops => if ops.isEmpty then circ else appendNTI circ ops)
          (if gp.isEmpty then circ0 else appendNTI circ0 gp) := hmo
      refine ih _ ?_ (fun g hgm => hg g (List.mem_cons_of_mem _ hgm)) mo hfold op hop
      intro mo2 hmo2 op2 hop2
      by_cases he : gp.isEmpty
      · rw [if_pos he] at hmo2
        exact h0 mo2 hmo2 op2 hop2
      · rw [if_neg he] at hmo2
        rcases appendNTI_mem op2 mo2 hop2 gp circ0 hmo2 with ⟨mo3, hmo3, hop3⟩ | hgp
        · exact h0 mo3 hmo3 op2 hop3
        · exact hg gp (List.mem_cons_self _ _) op2 hgp

lemma build_circuit_wf {n : ℕ} {gates : List GateOp} {c : List (List (Op n))}
    (h : build_circuit n gates = Except.ok c) :
    ∀ mo ∈ c, ∀ op ∈ mo, OpWF op := by
  unfold build_circuit at h
  cases hm : gates.mapM (processGate n) with
  | error e =>
      rw [hm] at h
      exact absurd (h : (Except.error e : Except PyErr (List (List (Op n))))
        = Except.ok c) (by simp)
  | ok processed =>
      rw [hm] at h
      have h2 : Except.ok (((List.range (maxMoment gates + 1).toNat).map (fun i =>
          processed.filterMap (fun x =>
            match x with
            | some (m, op) => if m = (i : Int) then some op else none
            | none => none))).foldl
          (fun circ ops => if ops.isEmpty then circ else appendNTI circ ops) [])
          = Except.ok c := h
      injection h2 with h3
      have hproc : ∀ x ∈ processed, ∀ mm (op : Op n), x = some (mm, op) → OpWF op := by
        intro x hx mm op hxe
        rcases mapM_loop_ok_mem (processGate n) gates [] processed hm x hx with
          h0 | ⟨g, _, hfg⟩
        · cases h0
        · subst hxe
          exact processGate_wf hfg
      rw [← h3]
      refine foldl_appendNTI_mem OpWF _ [] (by intro mo hmo; cases hmo) ?_
      intro gops hgops op hopg
      obtain ⟨i, _, hfil⟩ := List.mem_map.mp hgops
      rw [← hfil] at hopg
      obtain ⟨x, hx, hxop⟩ := List.mem_filterMap.mp hopg
      match x with
      | none => exact Option.noConfusion hxop
      | some (m2, op2) =>
          have : (if m2 = (i : Int) then some op2 else none) = some op := hxop
          by_cases hmi : m2 = (i : Int)
          · rw [if_pos hmi] at this
            injection this with h4
            exact h4 ▸ hproc _ hx m2 op2 rfl
          · rw [if_neg hmi] at this
            exact Option.noConfusion this

/-! ## Claim theorems: norm preservation -/

lemma mkSteps_mem (q c : ℕ) (l : List (QState q)) :
    ∀ s ∈ mkSteps q c l, ∃ ψ ∈ l, s.state_vector = (process_state q (flatten q ψ)).1 := by
  induction l generalizing c with
  | nil => intro s hs; cases hs
  | cons ψ rest ih =>
      intro s hs
      rcases List.mem_cons.mp hs with rfl | hs2
      · exact ⟨ψ, List.mem_cons_self _ _, rfl⟩
      · obtain ⟨ψ2, hψ2, hsv⟩ := ih (c + 1) s hs2
        exact ⟨ψ2, List.mem_cons_of_mem _ hψ2, hsv⟩

lemma sumSq_process (n : ℕ) (ψ : QState n) :
    sumSqList ((process_state n (flatten n ψ)).1) = normSqState ψ := by
  unfold sumSqList process_state
  rw [List.map_ofFn, List.sum_ofFn]
  unfold normSqState
  rw [← Equiv.sum_comp (flatEquiv n).symm (fun f => Complex.normSq (ψ f))]
  refine Finset.sum_congr rfl (fun x _ => ?_)
  simp [Function.comp, flatten, Complex.normSq_apply]
  ring

lemma initState_normSq (n : ℕ) : normSqState (initState n) = 1 := by
  unfold normSqState
  have h1 : ∑ f : Fin n → Fin 2, Complex.normSq (initState n f)
      = ∑ x : Fin (2 ^ n), Complex.normSq (initFlat n x) :=
    Equiv.sum_comp (flatEquiv n) (fun x => Complex.normSq (initFlat n x))
  rw [h1]
  have hpos : 0 < 2 ^ n := Nat.pos_pow_of_pos n (by norm_num)
  rw [Finset.sum_eq_single (⟨0, hpos⟩ : Fin (2 ^ n))]
  · simp [initFlat]
  · intro b _ hb
    have hb2 : (b : ℕ) ≠ 0 := fun hb0 => hb (Fin.ext hb0)
    simp [initFlat, hb2]
  · intro habs
    exact absurd (Finset.mem_univ _) habs

/-- C4: every step the simulation records — the moment `-1` initial step
included — has a state vector whose sum of squared magnitudes is within
`1e-6` of `1` (in this exact-arithmetic model of the floating-point code
the sum is exactly `1`, since every gate the builder accepts is unitary). -/
theorem C4_norm_preserved (d : CircuitData) (r : SimulationResult)
    (h : run_simulation d = Except.ok r) :
    ∀ s ∈ r.steps, |sumSqList s.state_vector - 1| ≤ 1 / 1000000 := by
  obtain ⟨c, hc, rfl⟩ := run_simulation_ok_inv h
  have hwf := build_circuit_wf hc
  intro s hs
  rw [assembleResult_steps] at hs
  have hone : sumSqList s.state_vector = 1 := by
    rcases List.mem_cons.mp hs with rfl | hs2
    · show sumSqList ((process_state _ (flatten _ (initState _))).1) = 1
      rw [sumSq_process, initState_normSq]
    · obtain ⟨ψ, hψ, hsv⟩ := mkSteps_mem _ _ _ s hs2
      rw [hsv, sumSq_process]
      rw [stepStates_normSq c hwf (initState d.qubits) ψ hψ]
      exact initState_normSq d.qubits
  rw [hone]
  norm_num

/-- Witness for `C4_norm_preserved`: the zero-gate one-qubit request. -/
theorem C4_norm_preserved_witness :
    ∃ r, run_simulation ⟨1, none, []⟩ = Except.ok r ∧
      ∀ s ∈ r.steps, |sumSqList s.state_vector - 1| ≤ 1 / 1000000 :=
  ⟨assembleResult 1 [], run_simulation_ok (c := []) rfl,
    C4_norm_preserved ⟨1, none, []⟩ (assembleResult 1 [])
      (run_simulation_ok (c := []) rfl)⟩

end CirqUI
